import Mathlib

/-!
Shallow embedding of the checkpoint lifecycle and cross-architecture
variable remapping subsystem of mesh_tensorflow/transformer/utils.py.

Variable names and checkpoint paths are modelled as lists of characters.
Recursions that are not structural in the source are implemented with an
explicit fuel argument equal to an obvious upper bound, so that every
definition reduces inside the kernel.  Python exceptions are modelled with
the Except monad.  Regular expressions appearing in the source are of two
very restricted shapes and are modelled by dedicated matching functions
whose semantics is spelled out in the doc comments; names are assumed not
to contain newline characters, so the dot of a regex matches any
character.
-/

/-- Digit character for a value below ten, as Python formatting emits it. -/
def digChar (d : Nat) : Char := Char.ofNat (48 + d)

/-- Numeric value of a digit character, as Python int parsing reads it. -/
def digitVal (c : Char) : Nat := c.toNat - 48

/-- Fuel-based decimal printer, auxiliary to natRepr. -/
def natReprAux : Nat → Nat → List Char
  | 0, _ => []
  | f + 1, n => if n < 10 then [digChar n] else natReprAux f (n / 10) ++ [digChar (n % 10)]

/-- Decimal representation of a natural number, as Python str(n). -/
def natRepr (n : Nat) : List Char := natReprAux (n + 1) n

/-- Decimal representation of an integer, as Python str(i). -/
def intRepr (i : Int) : List Char :=
  if i < 0 then '-' :: natRepr (-i).toNat else natRepr i.toNat

/-- Value of a string of decimal digits, as Python int(s). -/
def parseDigits (l : List Char) : Nat := l.foldl (fun a c => 10 * a + digitVal c) 0

/-- The literal marker model.ckpt- that precedes the step number inside a
checkpoint identifier. -/
def ckptMark : List Char := "model.ckpt-".toList

/-- Checkpoint identifier built by _get_checkpoint_path: the base directory
joined with model.ckpt-(step). -/
def ckptPathOfStep (dir : List Char) (s : Int) : List Char :=
  dir ++ '/' :: (ckptMark ++ intRepr s)

/-- True when the list begins with the marker model.ckpt- immediately
followed by at least one decimal digit. -/
def markWithDigit (l : List Char) : Bool :=
  ckptMark.isPrefixOf l &&
    (match l.drop ckptMark.length with
     | [] => false
     | c :: _ => c.isDigit)

/-- The number captured right after the marker: the maximal digit run,
matching the greedy capture of the regex .*model\.ckpt\-(\d+).* . -/
def capAfterMark (l : List Char) : Nat :=
  parseDigits ((l.drop ckptMark.length).takeWhile Char.isDigit)

/-- Model of the regex search done by get_step_from_checkpoint_path.  The
Python pattern .*model\.ckpt\-(\d+).* has a greedy leading dot-star, so it
captures the maximal digit run following the last occurrence of the marker
that is followed by at least one digit; scanning the list from the right
realises exactly that. -/
def stepFromPath : List Char → Option Nat
  | [] => none
  | c :: rest =>
    match stepFromPath rest with
    | some n => some n
    | none => if markWithDigit (c :: rest) then some (capAfterMark (c :: rest)) else none

/-- Model of get_step_from_checkpoint_path (utils.py, lines 1431 to 1450):
returns the embedded step, raising ValueError on paths without one. -/
def stepOfPathE (p : List Char) : Except String Nat :=
  match stepFromPath p with
  | some n => .ok n
  | none => .error "Invalid checkpoint path"

theorem natReprAux_mono (n : Nat) : ∀ f g, n < f → n < g → natReprAux f n = natReprAux g n := by
  induction n using Nat.strong_induction_on with
  | _ n ih =>
    intro f g hf hg
    cases f with
    | zero => omega
    | succ f =>
      cases g with
      | zero => omega
      | succ g =>
        by_cases h10 : n < 10
        · simp [natReprAux, h10]
        · have hdiv : n / 10 < n := Nat.div_lt_self (by omega) (by omega)
          simp only [natReprAux, if_neg h10]
          rw [ih (n / 10) hdiv f g (by omega) (by omega)]

/-- Unfolding equation for natRepr. -/
theorem natRepr_unfold (n : Nat) :
    natRepr n = if n < 10 then [digChar n] else natRepr (n / 10) ++ [digChar (n % 10)] := by
  by_cases h10 : n < 10
  · simp [natRepr, natReprAux, h10]
  · have hdiv : n / 10 < n := Nat.div_lt_self (by omega) (by omega)
    have h2 : natReprAux n (n / 10) = natReprAux (n / 10 + 1) (n / 10) :=
      natReprAux_mono (n / 10) n (n / 10 + 1) (by omega) (by omega)
    show natReprAux (n + 1) n = _
    simp only [natReprAux, if_neg h10]
    rw [h2]
    rfl

theorem digChar_isDigit {d : Nat} (h : d < 10) : (digChar d).isDigit = true := by
  interval_cases d <;> decide

theorem digitVal_digChar {d : Nat} (h : d < 10) : digitVal (digChar d) = d := by
  interval_cases d <;> decide

theorem natRepr_all_digits (n : Nat) : ∀ c ∈ natRepr n, c.isDigit = true := by
  induction n using Nat.strong_induction_on with
  | _ n ih =>
    rw [natRepr_unfold]
    by_cases h10 : n < 10
    · simp [h10]
      exact digChar_isDigit h10
    · have hpos : 0 < n := by omega
      have hdiv : n / 10 < n := Nat.div_lt_self hpos (by omega)
      simp [h10]
      intro c hc
      rcases hc with hc | hc
      · exact ih _ hdiv c hc
      · rw [hc]; exact digChar_isDigit (Nat.mod_lt _ (by omega))

theorem natRepr_ne_nil (n : Nat) : natRepr n ≠ [] := by
  rw [natRepr_unfold]
  by_cases h10 : n < 10 <;> simp [h10]

theorem parseDigits_append_one (l : List Char) (c : Char) :
    parseDigits (l ++ [c]) = 10 * parseDigits l + digitVal c := by
  simp [parseDigits, List.foldl_append]

theorem parseDigits_natRepr (n : Nat) : parseDigits (natRepr n) = n := by
  induction n using Nat.strong_induction_on with
  | _ n ih =>
    rw [natRepr_unfold]
    by_cases h10 : n < 10
    · simp [h10, parseDigits]
      have := digitVal_digChar h10
      omega
    · have hpos : 0 < n := by omega
      have hdiv : n / 10 < n := Nat.div_lt_self hpos (by omega)
      simp [h10, parseDigits_append_one, ih _ hdiv, digitVal_digChar (Nat.mod_lt n (by omega) : n % 10 < 10)]
      omega

theorem stepFromPath_cons_some {rest : List Char} {n : Nat} (c : Char)
    (h : stepFromPath rest = some n) : stepFromPath (c :: rest) = some n := by
  simp [stepFromPath, h]

theorem stepFromPath_cons_mark {rest : List Char} {c : Char}
    (h : stepFromPath rest = none) (hm : markWithDigit (c :: rest) = true) :
    stepFromPath (c :: rest) = some (capAfterMark (c :: rest)) := by
  simp [stepFromPath, h, hm]

theorem stepFromPath_cons_none {rest : List Char} {c : Char} (hc : c ≠ 'm')
    (h : stepFromPath rest = none) : stepFromPath (c :: rest) = none := by
  have hmark : markWithDigit (c :: rest) = false := by
    have hpre : ckptMark.isPrefixOf (c :: rest) = false := by
      show List.isPrefixOf ('m' :: "odel.ckpt-".toList) (c :: rest) = false
      have hb : ('m' == c) = false := beq_eq_false_iff_ne.mpr (Ne.symm hc)
      simp only [List.isPrefixOf, hb, Bool.false_and]
    simp only [markWithDigit, hpre, Bool.false_and]
  simp [stepFromPath, h, hmark]

theorem stepFromPath_digits {l : List Char} (h : ∀ c ∈ l, c.isDigit = true) :
    stepFromPath l = none := by
  induction l with
  | nil => rfl
  | cons c rest ih =>
    have hd : c.isDigit = true := h c (by simp)
    have hc : c ≠ 'm' := by
      intro he; rw [he] at hd; exact absurd hd (by decide)
    exact stepFromPath_cons_none hc (ih (fun x hx => h x (by simp [hx])))

theorem takeWhile_of_all {p : Char → Bool} {l : List Char} (h : ∀ c ∈ l, p c = true) :
    l.takeWhile p = l := by
  induction l with
  | nil => rfl
  | cons c rest ih =>
    have hc : p c = true := h c (by simp)
    have ht : rest.takeWhile p = rest := ih (fun x hx => h x (by simp [hx]))
    simp [List.takeWhile, hc, ht]

theorem stepFromPath_marker {ds : List Char} (hne : ds ≠ [])
    (hdig : ∀ c ∈ ds, c.isDigit = true) :
    stepFromPath (ckptMark ++ ds) = some (parseDigits ds) := by
  have h0 : stepFromPath ds = none := stepFromPath_digits hdig
  have h1 : stepFromPath ('-' :: ds) = none := stepFromPath_cons_none (by decide) h0
  have h2 : stepFromPath ('t' :: '-' :: ds) = none := stepFromPath_cons_none (by decide) h1
  have h3 : stepFromPath ('p' :: 't' :: '-' :: ds) = none :=
    stepFromPath_cons_none (by decide) h2
  have h4 : stepFromPath ('k' :: 'p' :: 't' :: '-' :: ds) = none :=
    stepFromPath_cons_none (by decide) h3
  have h5 : stepFromPath ('c' :: 'k' :: 'p' :: 't' :: '-' :: ds) = none :=
    stepFromPath_cons_none (by decide) h4
  have h6 : stepFromPath ('.' :: 'c' :: 'k' :: 'p' :: 't' :: '-' :: ds) = none :=
    stepFromPath_cons_none (by decide) h5
  have h7 : stepFromPath ('l' :: '.' :: 'c' :: 'k' :: 'p' :: 't' :: '-' :: ds) = none :=
    stepFromPath_cons_none (by decide) h6
  have h8 : stepFromPath ('e' :: 'l' :: '.' :: 'c' :: 'k' :: 'p' :: 't' :: '-' :: ds) = none :=
    stepFromPath_cons_none (by decide) h7
  have h9 : stepFromPath ('d' :: 'e' :: 'l' :: '.' :: 'c' :: 'k' :: 'p' :: 't' :: '-' :: ds)
      = none := stepFromPath_cons_none (by decide) h8
  have h10 : stepFromPath ('o' :: 'd' :: 'e' :: 'l' :: '.' :: 'c' :: 'k' :: 'p' :: 't' :: '-' :: ds)
      = none := stepFromPath_cons_none (by decide) h9
  have hmark : markWithDigit (ckptMark ++ ds) = true := by
    have hpre : ckptMark.isPrefixOf (ckptMark ++ ds) = true := by
      rw [List.isPrefixOf_iff_prefix]
      exact List.prefix_append _ _
    obtain ⟨d, ds', rfl⟩ : ∃ d ds', ds = d :: ds' := by
      cases ds with
      | nil => exact absurd rfl hne
      | cons d ds' => exact ⟨d, ds', rfl⟩
    have hdrop : (ckptMark ++ d :: ds').drop ckptMark.length = d :: ds' := by
      simp [List.drop_left]
    simp only [markWithDigit, hpre, hdrop, Bool.true_and]
    exact hdig d (by simp)
  have hcap : capAfterMark (ckptMark ++ ds) = parseDigits ds := by
    simp only [capAfterMark]
    rw [List.drop_left, takeWhile_of_all hdig]
  have hfull : stepFromPath (ckptMark ++ ds) = some (capAfterMark (ckptMark ++ ds)) := by
    have heq : ckptMark ++ ds
        = 'm' :: ('o' :: 'd' :: 'e' :: 'l' :: '.' :: 'c' :: 'k' :: 'p' :: 't' :: '-' :: ds) := rfl
    rw [heq] at hmark ⊢
    exact stepFromPath_cons_mark h10 hmark
  rw [hfull, hcap]

theorem stepFromPath_append {front tail : List Char} {n : Nat}
    (h : stepFromPath tail = some n) : stepFromPath (front ++ tail) = some n := by
  induction front with
  | nil => exact h
  | cons c r ih => exact stepFromPath_cons_some c ih

/-- C8: round-trip identity of the step codec.  For every non-negative step
s and every base directory, parsing the identifier built by joining the
directory with model.ckpt-(s) returns s. -/
theorem roundtrip_step_codec (dir : List Char) (s : Nat) :
    stepOfPathE (ckptPathOfStep dir (s : Int)) = .ok s := by
  have hint : intRepr (s : Int) = natRepr s := by
    simp [intRepr]
  have hstep : stepFromPath (ckptPathOfStep dir (s : Int)) = some s := by
    rw [ckptPathOfStep, hint]
    have hmark : stepFromPath (ckptMark ++ natRepr s) = some (parseDigits (natRepr s)) :=
      stepFromPath_marker (natRepr_ne_nil s) (natRepr_all_digits s)
    rw [parseDigits_natRepr] at hmark
    have : stepFromPath ('/' :: (ckptMark ++ natRepr s)) = some s :=
      stepFromPath_cons_some _ hmark
    exact @stepFromPath_append dir _ _ this
  simp [stepOfPathE, hstep]

/-- Zero-padded three-digit decimal formatting, as the Python format
specification 0=3d: numbers with more than three digits are printed in
full. -/
def pad3 (n : Nat) : List Char :=
  List.replicate (3 - (natRepr n).length) '0' ++ natRepr n

/-- Regex pattern built by build_regex inside
_build_ckpt_to_local_var_name_mapping (utils.py, lines 302 to 353).  Every
such pattern is either a literal block/layer core, or a literal sub-tree
marker followed by a dot-star gap and then the core; the two parts are
kept separate here, mirroring the split on the dot-star marker that the
matcher performs on the regex string. -/
structure LayerPat where
  rxPre : Option (List Char)
  core : List Char
deriving DecidableEq

/-- Model of build_regex: layer_NNN, with block_NNN/ prepended when the
architecture has block grouping, and the sub-tree marker plus a dot-star
gap prepended when a regex prefix is given. -/
def build_regex (rxPre : Option (List Char)) (numBlocks : Option Int)
    (layerNum blockNum : Nat) : LayerPat :=
  let base :=
    if numBlocks.isSome then
      "block_".toList ++ pad3 blockNum ++ ("/layer_".toList ++ pad3 layerNum)
    else
      "layer_".toList ++ pad3 layerNum
  { rxPre := rxPre, core := base }

/-- Python truthiness of (num_blocks or 1) used in the range expressions of
_build_ckpt_to_local_var_name_mapping: None and 0 turn into 1. -/
def pyOr1 : Option Int → Int
  | none => 1
  | some k => if k = 0 then 1 else k

/-- Python range(n) over an integer bound: empty for non-positive bounds. -/
def rangeN (n : Int) : List Nat := List.range n.toNat

/-- Membership test layer_num in new_layers, with None meaning no skipping. -/
def isNewLayer (newLayers : Option (List Int)) (l : Nat) : Bool :=
  match newLayers with
  | none => false
  | some ns => ns.contains (l : Int)

/-- The ordered list of checkpoint-side patterns enumerated by the outer
block loop and inner layer loop of _build_ckpt_to_local_var_name_mapping. -/
def allCkptRegexes (nb : Option Int) (nl : Int) (rxPre : Option (List Char)) : List LayerPat :=
  (rangeN (pyOr1 nb)).flatMap (fun b => (rangeN nl).map (fun l => build_regex rxPre nb l b))

/-- The ordered list of local-side patterns: same enumeration, but pairs
whose layer index occurs in new_layers are skipped. -/
def allLocalRegexes (nb : Option Int) (nl : Int) (newLayers : Option (List Int))
    (rxPre : Option (List Char)) : List LayerPat :=
  (rangeN (pyOr1 nb)).flatMap (fun b => (rangeN nl).filterMap (fun l =>
    if isNewLayer newLayers l then none else some (build_regex rxPre nb l b)))

/-- Model of _build_ckpt_to_local_var_name_mapping (utils.py, lines 302 to
353).  The Python dictionary insertion order is the zip order and its keys
are pairwise distinct patterns, so the dictionary is modelled as the list
of zipped pairs; the ValueError raised on a length mismatch becomes an
error value. -/
def build_ckpt_to_local_var_name_mapping (cb : Option Int) (cl : Int)
    (lb : Option Int) (ll : Int) (newLayers : Option (List Int))
    (rxPre : Option (List Char)) : Except String (List (LayerPat × LayerPat)) :=
  let src := allCkptRegexes cb cl rxPre
  let tgt := allLocalRegexes lb ll newLayers rxPre
  if src.length ≠ tgt.length then
    .error "Invalid checkpoint to load"
  else
    .ok (src.zip tgt)

/-- Substring test, as the Python operator in on strings. -/
def isSubOf (needle : List Char) : List Char → Bool
  | [] => needle.isPrefixOf []
  | c :: rest => needle.isPrefixOf (c :: rest) || isSubOf needle rest

/-- Python split on the slash character. -/
def splitSlash : List Char → List (List Char)
  | [] => [[]]
  | c :: r =>
    match splitSlash r with
    | [] => [[]]
    | s :: ss => if c = '/' then [] :: s :: ss else (c :: s) :: ss

/-- Final path segment, as the Python expression split on slash indexed at
minus one. -/
def lastSeg (name : List Char) : List Char := (splitSlash name).getLastD []

/-- The literal substring layer tested by the identity guard of
_match_ckpt_to_local_var_name. -/
def layerTok : List Char := "layer".toList

/-- Fuel-based model of the Python str.replace, which substitutes every
non-overlapping occurrence of old from left to right; the fuel is the
length of the subject string, enough because each step consumes at least
one character when old is nonempty, and old is a nonempty pattern core at
every call site. -/
def replaceAllAux (old new : List Char) : Nat → List Char → List Char
  | 0, s => s
  | f + 1, s =>
    match s with
    | [] => []
    | c :: rest =>
      if old ≠ [] && old.isPrefixOf (c :: rest) then
        new ++ replaceAllAux old new f ((c :: rest).drop old.length)
      else
        c :: replaceAllAux old new f rest

def replaceAll (s old new : List Char) : List Char := replaceAllAux old new s.length s

/-- Anchored matching of a pattern against a name, as re.match does with
the regex string built by build_regex: with no sub-tree marker the core
must be a literal prefix of the name; with a marker, the marker must be a
literal prefix and the core must occur anywhere in the remainder, which is
what the greedy dot-star gap allows. -/
def regexMatchAnchored (p : LayerPat) (name : List Char) : Bool :=
  match p.rxPre with
  | none => p.core.isPrefixOf name
  | some pre => pre.isPrefixOf name && isSubOf p.core (name.drop pre.length)

/-- Model of _match_ckpt_to_local_var_name (utils.py, lines 356 to 379).
The loop over the dictionary returns true as soon as one entry passes both
anchored matches and the reconstruction check, where the regex strings are
first stripped of everything up to the dot-star marker; stripping a
pattern of this shape always yields its core. -/
def match_ckpt_to_local_var_name (ckptVarName localVarName : List Char)
    (mapping : List (LayerPat × LayerPat)) : Bool :=
  if !(isSubOf layerTok ckptVarName) || !(isSubOf layerTok localVarName) then
    ckptVarName == localVarName
  else if lastSeg ckptVarName ≠ lastSeg localVarName then
    false
  else
    mapping.any (fun pq =>
      regexMatchAnchored pq.1 ckptVarName && regexMatchAnchored pq.2 localVarName &&
        (replaceAll ckptVarName pq.1.core pq.2.core == localVarName))

/-- Membership of a local variable name in the graph_var_to_ckpt_var
dictionary built by flexible_ckpt_init_mapping (utils.py, lines 481 to
493): the dictionary receives the key local_var_name whenever some
checkpoint name and some sub-tree mapping match it, so membership is this
existence test; this is the filter_fn view of the remapping index. -/
def is_restorable (ckptVarNames localVarNames : List (List Char))
    (mappings : List (List (LayerPat × LayerPat))) (v : List Char) : Bool :=
  localVarNames.contains v &&
    ckptVarNames.any (fun c =>
      mappings.any (fun m => match_ckpt_to_local_var_name c v m))

theorem length_flatMap_of_const {α β : Type} (l : List α) (f : α → List β) (k : Nat)
    (h : ∀ a ∈ l, (f a).length = k) : (l.flatMap f).length = l.length * k := by
  induction l with
  | nil => simp
  | cons a t ih =>
    have ha : (f a).length = k := h a (by simp)
    have ht : (t.flatMap f).length = t.length * k := ih (fun x hx => h x (by simp [hx]))
    simp only [List.flatMap_cons, List.length_append, List.length_cons, ha, ht]
    ring

theorem length_filterMap_if {α β : Type} (l : List α) (p : α → Bool) (g : α → β) :
    (l.filterMap (fun x => if p x then none else some (g x))).length
      = (l.filter (fun x => !p x)).length := by
  induction l with
  | nil => rfl
  | cons a t ih => by_cases h : p a <;> simp [List.filterMap_cons, List.filter_cons, h, ih]

theorem length_allCkptRegexes (nb : Option Int) (nl : Int) (rxPre : Option (List Char)) :
    (allCkptRegexes nb nl rxPre).length = (pyOr1 nb).toNat * nl.toNat := by
  unfold allCkptRegexes
  rw [length_flatMap_of_const _ _ nl.toNat (fun b _ => by simp [rangeN])]
  simp [rangeN]

theorem length_allLocalRegexes (nb : Option Int) (nl : Int)
    (newLayers : Option (List Int)) (rxPre : Option (List Char)) :
    (allLocalRegexes nb nl newLayers rxPre).length
      = (pyOr1 nb).toNat * ((rangeN nl).filter (fun l => !isNewLayer newLayers l)).length := by
  unfold allLocalRegexes
  rw [length_flatMap_of_const _ _
    ((rangeN nl).filter (fun l => !isNewLayer newLayers l)).length
    (fun b _ => length_filterMap_if _ _ _)]
  simp [rangeN]

/-- C1: for every source and target block/layer count, new-layer list and
sub-tree marker, _build_ckpt_to_local_var_name_mapping fails exactly when
the number of enumerated source block/layer slots differs from the number
of target slots that survive the new-layer skip; when the counts agree it
returns the positional zip of the two enumerations, and the concrete case
of four blocks and three layers on both sides with no new layers yields
twelve entries and no error. -/
theorem builder_mismatch_iff_counts (cb : Option Int) (cl : Int) (lb : Option Int)
    (ll : Int) (newLayers : Option (List Int)) (rxPre : Option (List Char)) :
    ((∃ e, build_ckpt_to_local_var_name_mapping cb cl lb ll newLayers rxPre = .error e) ↔
      (pyOr1 cb).toNat * cl.toNat
        ≠ (pyOr1 lb).toNat * ((rangeN ll).filter (fun l => !isNewLayer newLayers l)).length) ∧
    ((pyOr1 cb).toNat * cl.toNat
        = (pyOr1 lb).toNat * ((rangeN ll).filter (fun l => !isNewLayer newLayers l)).length →
      build_ckpt_to_local_var_name_mapping cb cl lb ll newLayers rxPre =
        .ok ((allCkptRegexes cb cl rxPre).zip (allLocalRegexes lb ll newLayers rxPre))) ∧
    (build_ckpt_to_local_var_name_mapping (some 4) 3 (some 4) 3 none none =
        .ok ((allCkptRegexes (some 4) 3 none).zip (allLocalRegexes (some 4) 3 none none)) ∧
      ((allCkptRegexes (some 4) 3 none).zip (allLocalRegexes (some 4) 3 none none)).length = 12) := by
  have hsrc := length_allCkptRegexes cb cl rxPre
  have htgt := length_allLocalRegexes lb ll newLayers rxPre
  refine ⟨?_, ?_, ?_, ?_⟩
  · constructor
    · intro ⟨e, he⟩
      intro hcount
      rw [build_ckpt_to_local_var_name_mapping] at he
      rw [if_neg (by rw [hsrc, htgt]; exact fun hne => hne hcount)] at he
      exact Except.noConfusion he
    · intro hcount
      refine ⟨"Invalid checkpoint to load", ?_⟩
      rw [build_ckpt_to_local_var_name_mapping]
      rw [if_pos (by rw [hsrc, htgt]; exact hcount)]
  · intro hcount
    rw [build_ckpt_to_local_var_name_mapping]
    rw [if_neg (by rw [hsrc, htgt]; exact fun hne => hne hcount)]
  · rfl
  · rfl

theorem builder_mismatch_iff_counts_witness :
    build_ckpt_to_local_var_name_mapping (some 2) 2 (some 2) 2 none none =
      .ok ((allCkptRegexes (some 2) 2 none).zip (allLocalRegexes (some 2) 2 none none)) :=
  (builder_mismatch_iff_counts (some 2) 2 (some 2) 2 none none).2.1 (by decide)

theorem isPrefixOf_append_of_le {needle : List Char} :
    ∀ (front rest : List Char), needle.length ≤ front.length →
      needle.isPrefixOf (front ++ rest) = needle.isPrefixOf front := by
  induction needle with
  | nil => intro front rest h; simp [List.isPrefixOf]
  | cons n nt ih =>
    intro front rest h
    cases front with
    | nil => simp at h
    | cons f ft =>
      show (n == f && nt.isPrefixOf (ft ++ rest)) = (n == f && nt.isPrefixOf ft)
      rw [ih ft rest (by simpa using h)]

theorem sub_of_isPrefixOf {needle hay : List Char} (h : needle.isPrefixOf hay = true) :
    isSubOf needle hay = true := by
  cases hay with
  | nil => exact h
  | cons c rest => simp [isSubOf, h]

/-- The three positional pairs produced for C2: flat layer patterns with
equal numbering on both sides. -/
def c2pat (l : Nat) : LayerPat := { rxPre := none, core := "layer_".toList ++ pad3 l }

def c2pairs : List (LayerPat × LayerPat) :=
  [(c2pat 0, c2pat 0), (c2pat 1, c2pat 1), (c2pat 2, c2pat 2)]

theorem c2_matcher_false (c rest : List Char) :
    match_ckpt_to_local_var_name c ("layer_003".toList ++ rest) c2pairs = false := by
  have hsubv : isSubOf layerTok ("layer_003".toList ++ rest) = true := by
    apply sub_of_isPrefixOf
    rw [show layerTok = "layer".toList from rfl,
      isPrefixOf_append_of_le ("layer_003".toList) rest (by decide)]
    decide
  unfold match_ckpt_to_local_var_name
  by_cases hsubc : isSubOf layerTok c = true
  · rw [hsubc, hsubv]
    simp only [Bool.not_true, Bool.or_self, Bool.false_eq_true, if_false]
    by_cases hseg : lastSeg c ≠ lastSeg ("layer_003".toList ++ rest)
    · rw [if_pos hseg]
    · rw [if_neg hseg]
      have h0 : regexMatchAnchored (c2pat 0) ("layer_003".toList ++ rest) = false := by
        show ((c2pat 0).core).isPrefixOf ("layer_003".toList ++ rest) = false
        rw [show (c2pat 0).core = "layer_000".toList from rfl,
          isPrefixOf_append_of_le ("layer_003".toList) rest (by decide)]
        decide
      have h1 : regexMatchAnchored (c2pat 1) ("layer_003".toList ++ rest) = false := by
        show ((c2pat 1).core).isPrefixOf ("layer_003".toList ++ rest) = false
        rw [show (c2pat 1).core = "layer_001".toList from rfl,
          isPrefixOf_append_of_le ("layer_003".toList) rest (by decide)]
        decide
      have h2 : regexMatchAnchored (c2pat 2) ("layer_003".toList ++ rest) = false := by
        show ((c2pat 2).core).isPrefixOf ("layer_003".toList ++ rest) = false
        rw [show (c2pat 2).core = "layer_002".toList from rfl,
          isPrefixOf_append_of_le ("layer_003".toList) rest (by decide)]
        decide
      show (regexMatchAnchored (c2pat 0) c
            && regexMatchAnchored (c2pat 0) ("layer_003".toList ++ rest)
            && (replaceAll c (c2pat 0).core (c2pat 0).core == "layer_003".toList ++ rest)
          || (regexMatchAnchored (c2pat 1) c
            && regexMatchAnchored (c2pat 1) ("layer_003".toList ++ rest)
            && (replaceAll c (c2pat 1).core (c2pat 1).core == "layer_003".toList ++ rest)
          || (regexMatchAnchored (c2pat 2) c
            && regexMatchAnchored (c2pat 2) ("layer_003".toList ++ rest)
            && (replaceAll c (c2pat 2).core (c2pat 2).core == "layer_003".toList ++ rest)
          || false))) = false
      rw [h0, h1, h2]
      simp
  · have hcv : (c == ("layer_003".toList ++ rest)) = false := by
      apply beq_eq_false_iff_ne.mpr
      intro he
      rw [he] at hsubc
      exact hsubc hsubv
    have hnot : (!(isSubOf layerTok c) || !(isSubOf layerTok ("layer_003".toList ++ rest))) = true := by
      simp only [Bool.or_eq_true, Bool.not_eq_true']
      exact Or.inl (by simpa using hsubc)
    rw [if_pos hnot, hcv]

/-- C2: with a flat source of three layers, a flat target of four layers
and layer three declared new, the builder pairs source layers 0, 1, 2
positionally with target layers 0, 1, 2, and in the remapping index built
from that correspondence no target variable name rooted at layer_003 is
restorable, whatever the checkpoint and local name sets are. -/
theorem new_layer_skip_unmapped :
    build_ckpt_to_local_var_name_mapping none 3 none 4 (some [3]) none = .ok c2pairs ∧
    (∀ (ckptVarNames localVarNames : List (List Char)) (rest : List Char),
      is_restorable ckptVarNames localVarNames [c2pairs] ("layer_003".toList ++ rest) = false) := by
  constructor
  · rfl
  · intro ckptVarNames localVarNames rest
    unfold is_restorable
    have hany : (ckptVarNames.any (fun c =>
        [c2pairs].any (fun m => match_ckpt_to_local_var_name c ("layer_003".toList ++ rest) m)))
        = false := by
      rw [List.any_eq_false]
      intro c hc
      simp only [List.any_cons, List.any_nil, Bool.or_false]
      rw [c2_matcher_false c rest]
      simp
    rw [hany, Bool.and_false]

theorem splitSlash_cons_ex (l : List Char) : ∃ s ss, splitSlash l = s :: ss := by
  induction l with
  | nil => exact ⟨[], [], rfl⟩
  | cons c r ih =>
    obtain ⟨s, ss, hs⟩ := ih
    by_cases hc : c = '/'
    · exact ⟨[], s :: ss, by simp [splitSlash, hs, hc]⟩
    · exact ⟨c :: s, ss, by simp [splitSlash, hs, hc]⟩

theorem isPrefixOf_split_head {needle : List Char} (hslash : '/' ∉ needle) :
    ∀ (r s : List Char) (ss : List (List Char)), splitSlash r = s :: ss →
      needle.isPrefixOf r = true → needle.isPrefixOf s = true := by
  induction needle with
  | nil => intro r s ss hs hp; simp [List.isPrefixOf]
  | cons m mt ih =>
    intro r s ss hs hp
    cases r with
    | nil => simp [List.isPrefixOf] at hp
    | cons c r2 =>
      have hp2 : (m == c) = true ∧ mt.isPrefixOf r2 = true := by
        have := hp
        simp only [List.isPrefixOf, Bool.and_eq_true] at this
        exact this
      have hmc : m = c := by simpa using hp2.1
      have hcslash : c ≠ '/' := by
        rw [← hmc]; intro he; exact hslash (by simp [he])
      obtain ⟨s2, ss2, hs2⟩ := splitSlash_cons_ex r2
      have hsplit : splitSlash (c :: r2) = (c :: s2) :: ss2 := by
        simp [splitSlash, hs2, hcslash]
      rw [hsplit] at hs
      have hse : s = c :: s2 := by
        injection hs with h1 h2
        exact h1.symm
      rw [hse]
      show (m == c && mt.isPrefixOf s2) = true
      rw [hp2.1, Bool.true_and]
      have hmt : '/' ∉ mt := fun hmem => hslash (by simp [hmem])
      exact ih hmt r2 s2 ss2 hs2 hp2.2

theorem isSubOf_imp_seg {needle : List Char} (hne : needle ≠ []) (hslash : '/' ∉ needle) :
    ∀ hay, isSubOf needle hay = true →
      (splitSlash hay).any (fun seg => isSubOf needle seg) = true := by
  intro hay
  induction hay with
  | nil =>
    intro h
    exfalso
    cases needle with
    | nil => exact hne rfl
    | cons a b => simp [isSubOf, List.isPrefixOf] at h
  | cons c r ih =>
    intro h
    obtain ⟨s2, ss2, hs2⟩ := splitSlash_cons_ex r
    rw [show isSubOf needle (c :: r)
        = (needle.isPrefixOf (c :: r) || isSubOf needle r) from rfl] at h
    by_cases hc : c = '/'
    · subst hc
      have hsplit : splitSlash ('/' :: r) = [] :: s2 :: ss2 := by simp [splitSlash, hs2]
      rw [hsplit]
      have hpre_false : needle.isPrefixOf ('/' :: r) = false := by
        cases needle with
        | nil => exact absurd rfl hne
        | cons m mt =>
          have hm : (m == '/') = false := by
            apply beq_eq_false_iff_ne.mpr
            intro he; exact hslash (by simp [he])
          show (m == '/' && mt.isPrefixOf r) = false
          rw [hm, Bool.false_and]
      rw [hpre_false, Bool.false_or] at h
      have hrec := ih h
      rw [hs2] at hrec
      simp only [List.any_cons, Bool.or_eq_true] at hrec ⊢
      exact Or.inr hrec
    · have hsplit : splitSlash (c :: r) = (c :: s2) :: ss2 := by simp [splitSlash, hs2, hc]
      rw [hsplit]
      rw [Bool.or_eq_true] at h
      rcases h with hpre | hsub
      · have hhead : needle.isPrefixOf (c :: s2) = true :=
          isPrefixOf_split_head hslash (c :: r) (c :: s2) ss2 hsplit hpre
      -- first segment contains the needle
        simp only [List.any_cons, Bool.or_eq_true]
        exact Or.inl (sub_of_isPrefixOf hhead)
      · have hrec := ih hsub
        rw [hs2] at hrec
        simp only [List.any_cons, Bool.or_eq_true] at hrec ⊢
        rcases hrec with hfirst | hrest
        · refine Or.inl ?_
          rw [show isSubOf needle (c :: s2)
            = (needle.isPrefixOf (c :: s2) || isSubOf needle s2) from rfl]
          rw [hfirst, Bool.or_true]
        · exact Or.inr hrest

/-- A name contains the literal layer inside one of its path segments.
Because the token has no slash, this is equivalent to a plain substring
test on the whole name, which is what the Python expression layer in name
computes. -/
def containsLayerSeg (nm : List Char) : Bool :=
  (splitSlash nm).any (fun seg => isSubOf layerTok seg)

/-- C3: when neither name carries the literal layer inside any path
segment, _match_ckpt_to_local_var_name reduces to identity of the two full
names whatever the correspondence list is, and in particular a variable
named global_step present identically on both sides always matches. -/
theorem identity_passthrough_nonlayer :
    (∀ (c v : List Char) (mapping : List (LayerPat × LayerPat)),
      containsLayerSeg c = false → containsLayerSeg v = false →
      (match_ckpt_to_local_var_name c v mapping = true ↔ c = v)) ∧
    (∀ mapping : List (LayerPat × LayerPat),
      match_ckpt_to_local_var_name "global_step".toList "global_step".toList mapping = true) := by
  constructor
  · intro c v mapping hc hv
    have hsub : isSubOf layerTok c = false := by
      cases hx : isSubOf layerTok c with
      | false => rfl
      | true =>
        have := @isSubOf_imp_seg layerTok (by decide) (by decide) c hx
        rw [containsLayerSeg] at hc
        rw [this] at hc
        exact Bool.noConfusion hc
    simp [match_ckpt_to_local_var_name, hsub, beq_iff_eq]
  · intro mapping
    have hcond : (!(isSubOf layerTok "global_step".toList)
        || !(isSubOf layerTok "global_step".toList)) = true := by decide
    unfold match_ckpt_to_local_var_name
    rw [if_pos hcond]
    decide

theorem identity_passthrough_nonlayer_witness :
    match_ckpt_to_local_var_name "a/b".toList "a/b".toList [] = true :=
  (identity_passthrough_nonlayer.1 "a/b".toList "a/b".toList []
    (by decide) (by decide)).mpr rfl

/-- Fuel-based model of re.findall for the unanchored pattern tok(\d{3})
used by _compute_num_blocks_and_layer on single-stack models: scan left to
right, capture the three digits after each occurrence of the token, and
resume after the end of the match, exactly as the non-overlapping findall
scan proceeds; the fuel is the length of the subject. -/
def findCapsAux (tok : List Char) : Nat → List Char → List Nat
  | 0, _ => []
  | f + 1, s =>
    match s with
    | [] => []
    | c :: rest =>
      if tok.isPrefixOf (c :: rest)
          && decide (3 ≤ ((c :: rest).drop tok.length).length)
          && (((c :: rest).drop tok.length).take 3).all Char.isDigit then
        parseDigits (((c :: rest).drop tok.length).take 3)
          :: findCapsAux tok f (((c :: rest).drop tok.length).drop 3)
      else
        findCapsAux tok f rest

def findCaps (tok s : List Char) : List Nat := findCapsAux tok s.length s

/-- Declarative reading of a capture: somewhere in the name the token is
followed by at least three digits, and the number read is the value of the
first three of them. -/
def occursCap (tok name : List Char) (n : Nat) : Prop :=
  ∃ i ds, name.drop i = tok ++ ds ∧ 3 ≤ ds.length ∧
    (ds.take 3).all Char.isDigit = true ∧ parseDigits (ds.take 3) = n

/-- Rightmost capture of tok(\d{3}) inside a list, together with the
remainder after the match: models the greedy dot-star of the anchored
patterns marker.*tok(\d{3}), whose backtracking selects the last position
where the token is followed by three digits. -/
def lastTokCap (tok : List Char) : List Char → Option (Nat × List Char)
  | [] => none
  | c :: rest =>
    match lastTokCap tok rest with
    | some r => some r
    | none =>
      if tok.isPrefixOf (c :: rest)
          && decide (3 ≤ ((c :: rest).drop tok.length).length)
          && (((c :: rest).drop tok.length).take 3).all Char.isDigit then
        some (parseDigits (((c :: rest).drop tok.length).take 3),
          ((c :: rest).drop tok.length).drop 3)
      else
        none

/-- Fuel-based model of re.findall for the anchored-marker pattern
marker.*tok(\d{3}) used on encoder-decoder models: at each scan position
the marker must match literally, the greedy gap then selects the last
following token capture, and scanning resumes after that match. -/
def capsGreedyAux (marker tok : List Char) : Nat → List Char → List Nat
  | 0, _ => []
  | f + 1, s =>
    match s with
    | [] => []
    | c :: rest =>
      if marker.isPrefixOf (c :: rest) then
        match lastTokCap tok ((c :: rest).drop marker.length) with
        | some (v, rem) => v :: capsGreedyAux marker tok f rem
        | none => capsGreedyAux marker tok f rest
      else
        capsGreedyAux marker tok f rest

def capsGreedy (marker tok s : List Char) : List Nat := capsGreedyAux marker tok s.length s

def layerUTok : List Char := "layer_".toList

def blockUTok : List Char := "block_".toList

def encTok : List Char := "encoder/".toList

def decTok : List Char := "decoder/".toList

/-- Model of get_max_layer_or_block_num: one plus the greatest captured
number over all names, with minus one when there is no capture, as the
Python max of the captures plus one together with a minus-one sentinel. -/
def getMaxNum (capsOf : List Char → List Nat) (varNames : List (List Char)) : Int :=
  ((varNames.flatMap capsOf).map (fun (n : Nat) => (n : Int) + 1)).foldl max (-1)

/-- Model of _compute_num_blocks_and_layer (utils.py, lines 382 to 409):
encoder-decoder detection is an anchored match of encoder/ against any
name; each sub-tree then gets its maximal block and layer numbers, blocks
being turned into None when absent. -/
def computeNumBlocksAndLayer (varNames : List (List Char)) :
    List (Option Int) × List Int :=
  let encoderDecoderModel := varNames.any (fun v => encTok.isPrefixOf v)
  if encoderDecoderModel then
    let encL := getMaxNum (fun v => capsGreedy encTok layerUTok v) varNames
    let encB := getMaxNum (fun v => capsGreedy encTok blockUTok v) varNames
    let decL := getMaxNum (fun v => capsGreedy decTok layerUTok v) varNames
    let decB := getMaxNum (fun v => capsGreedy decTok blockUTok v) varNames
    ([if encB = -1 then none else some encB, if decB = -1 then none else some decB],
      [encL, decL])
  else
    let l := getMaxNum (fun v => findCaps layerUTok v) varNames
    let b := getMaxNum (fun v => findCaps blockUTok v) varNames
    ([if b = -1 then none else some b], [l])

theorem prefix_decomp {tok s : List Char} (h : tok.isPrefixOf s = true) :
    s = tok ++ s.drop tok.length := by
  rw [List.isPrefixOf_iff_prefix] at h
  exact (List.prefix_iff_eq_append.mp h).symm

theorem getElem?_of_drop_eq {l : List Char} {i : Nat} {x : Char} {xs : List Char}
    (h : l.drop i = x :: xs) : l[i]? = some x := by
  have := List.getElem?_drop l i 0
  rw [h] at this
  simpa using this.symm

theorem drop_append_of_ge {l₁ l₂ : List Char} {i : Nat} (h : l₁.length ≤ i) :
    (l₁ ++ l₂).drop i = l₂.drop (i - l₁.length) := by
  rw [List.drop_append_eq_append_drop]
  rw [List.drop_eq_nil_of_le h]
  simp

theorem drop_drop_add (l : List Char) (a b : Nat) : (l.drop a).drop b = l.drop (a + b) := by
  rw [List.drop_drop]

theorem mem_findCapsAux_iff {t0 : Char} {tr : List Char} (hd : t0.isDigit = false)
    (hmem : t0 ∉ tr) :
    ∀ (f : Nat) (s : List Char), s.length ≤ f → ∀ n,
      (n ∈ findCapsAux (t0 :: tr) f s ↔ occursCap (t0 :: tr) s n) := by
  intro f
  induction f with
  | zero =>
    intro s hs n
    have hnil : s = [] := List.length_eq_zero.mp (Nat.le_antisymm hs (Nat.zero_le _))
    subst hnil
    simp only [findCapsAux, List.not_mem_nil, false_iff]
    rintro ⟨i, ds, h1, h2, h3, h4⟩
    rw [List.drop_nil] at h1
    exact List.noConfusion (h1.symm)
  | succ f ih =>
    intro s hs n
    cases s with
    | nil =>
      simp only [findCapsAux, List.not_mem_nil, false_iff]
      rintro ⟨i, ds, h1, h2, h3, h4⟩
      rw [List.drop_nil] at h1
      exact List.noConfusion (h1.symm)
    | cons c rest =>
      by_cases hcond : ((t0 :: tr).isPrefixOf (c :: rest)
          && decide (3 ≤ (((c :: rest).drop (t0 :: tr).length)).length)
          && ((((c :: rest).drop (t0 :: tr).length)).take 3).all Char.isDigit) = true
      · have hparts := hcond
        rw [Bool.and_eq_true, Bool.and_eq_true] at hparts
        obtain ⟨⟨hpre, hlenb⟩, hdig⟩ := hparts
        have hlen3 : 3 ≤ ((c :: rest).drop (t0 :: tr).length).length :=
          of_decide_eq_true hlenb
        have hs_eq : c :: rest = (t0 :: tr) ++ (c :: rest).drop (t0 :: tr).length :=
          prefix_decomp hpre
        have hrecfuel : (((c :: rest).drop (t0 :: tr).length).drop 3).length ≤ f := by
          simp only [List.length_drop, List.length_cons] at hs ⊢
          omega
        have hunfold : findCapsAux (t0 :: tr) (f + 1) (c :: rest)
            = parseDigits (((c :: rest).drop (t0 :: tr).length).take 3)
              :: findCapsAux (t0 :: tr) f (((c :: rest).drop (t0 :: tr).length).drop 3) := by
          simp only [findCapsAux]
          rw [if_pos hcond]
        rw [hunfold]
        constructor
        · intro hmem2
          rcases List.mem_cons.mp hmem2 with h | h
          · refine ⟨0, (c :: rest).drop (t0 :: tr).length, ?_, hlen3, hdig, h.symm⟩
            rw [List.drop_zero]
            exact hs_eq
          · obtain ⟨i, ds, h1, h2, h3, h4⟩ := (ih _ hrecfuel n).mp h
            refine ⟨i + ((t0 :: tr).length + 3), ds, ?_, h2, h3, h4⟩
            have hdrop : (c :: rest).drop (i + ((t0 :: tr).length + 3))
                = (((c :: rest).drop (t0 :: tr).length).drop 3).drop i := by
              conv_lhs => rw [hs_eq]
              rw [drop_append_of_ge (by omega)]
              simp only [drop_drop_add]
              congr 1
              omega
            rw [hdrop]
            exact h1
        · rintro ⟨i, ds, h1, h2, h3, h4⟩
          rcases Nat.lt_or_ge i 1 with hi | hi1
          · have hi0 : i = 0 := by omega
            subst hi0
            rw [List.drop_zero] at h1
            have hds : ds = (c :: rest).drop (t0 :: tr).length := by
              have := congrArg (fun l => List.drop (t0 :: tr).length l) h1
              simpa [List.drop_left] using this.symm
            subst hds
            exact List.mem_cons.mpr (Or.inl h4.symm)
          · rcases Nat.lt_or_ge i (t0 :: tr).length with hiA | hiB
            · exfalso
              have hhead : (c :: rest)[i]? = some t0 := getElem?_of_drop_eq h1
              rw [hs_eq] at hhead
              rw [List.getElem?_append, if_pos hiA] at hhead
              obtain ⟨j, rfl⟩ : ∃ j, i = j + 1 := ⟨i - 1, by omega⟩
              rw [List.getElem?_cons_succ] at hhead
              exact hmem (List.getElem?_mem hhead)
            · rcases Nat.lt_or_ge i ((t0 :: tr).length + 3) with hiB3 | hiC
              · exfalso
                have hdrop : (c :: rest).drop i
                    = ((c :: rest).drop (t0 :: tr).length).drop (i - (t0 :: tr).length) := by
                  conv_lhs => rw [hs_eq]
                  exact drop_append_of_ge hiB
                rw [hdrop] at h1
                have hhead : ((c :: rest).drop (t0 :: tr).length)[i - (t0 :: tr).length]?
                    = some t0 := getElem?_of_drop_eq h1
                have htake : (((c :: rest).drop (t0 :: tr).length).take 3)[i - (t0 :: tr).length]?
                    = some t0 := by
                  rw [List.getElem?_take]
                  rw [if_pos (by omega)]
                  exact hhead
                have : t0.isDigit = true :=
                  (List.all_eq_true.mp hdig) t0 (List.getElem?_mem htake)
                rw [hd] at this
                exact Bool.noConfusion this
              · refine List.mem_cons.mpr (Or.inr ?_)
                refine (ih _ hrecfuel n).mpr ⟨i - ((t0 :: tr).length + 3), ds, ?_, h2, h3, h4⟩
                have hdrop : (c :: rest).drop i
                    = (((c :: rest).drop (t0 :: tr).length).drop 3).drop
                        (i - ((t0 :: tr).length + 3)) := by
                  conv_lhs => rw [hs_eq]
                  rw [drop_append_of_ge (by omega)]
                  simp only [drop_drop_add]
                  congr 1
                  omega
                rw [← hdrop]
                exact h1
      · have hunfold : findCapsAux (t0 :: tr) (f + 1) (c :: rest)
            = findCapsAux (t0 :: tr) f rest := by
          simp only [findCapsAux]
          rw [if_neg hcond]
        rw [hunfold]
        have hfuel : rest.length ≤ f := by
          simp only [List.length_cons] at hs
          omega
        rw [ih rest hfuel n]
        constructor
        · rintro ⟨i, ds, h1, h2, h3, h4⟩
          exact ⟨i + 1, ds, by rw [List.drop_succ_cons]; exact h1, h2, h3, h4⟩
        · rintro ⟨i, ds, h1, h2, h3, h4⟩
          cases i with
          | zero =>
            exfalso
            rw [List.drop_zero] at h1
            have hpre : (t0 :: tr).isPrefixOf (c :: rest) = true := by
              rw [List.isPrefixOf_iff_prefix]
              exact ⟨ds, h1.symm⟩
            have hds : ds = (c :: rest).drop (t0 :: tr).length := by
              have := congrArg (fun l => List.drop (t0 :: tr).length l) h1
              simpa [List.drop_left] using this.symm
            subst hds
            exact hcond (by rw [hpre, decide_eq_true h2, h3]; rfl)
          | succ i =>
            rw [List.drop_succ_cons] at h1
            exact ⟨i, ds, h1, h2, h3, h4⟩

theorem mem_findCaps_iff {t0 : Char} {tr : List Char} (hd : t0.isDigit = false)
    (hmem : t0 ∉ tr) (s : List Char) (n : Nat) :
    n ∈ findCaps (t0 :: tr) s ↔ occursCap (t0 :: tr) s n :=
  mem_findCapsAux_iff hd hmem s.length s (Nat.le_refl _) n

theorem le_foldl_max_map (l : List Nat) :
    ∀ (init : Int) (x : Nat),
      ((x : Int) + 1 ≤ (l.map (fun (n : Nat) => (n : Int) + 1)).foldl max init ↔
        ((x : Int) + 1 ≤ init ∨ ∃ y ∈ l, x ≤ y)) := by
  induction l with
  | nil => intro init x; simp
  | cons a t ih =>
    intro init x
    rw [List.map_cons, List.foldl_cons, ih (max init ((a : Int) + 1)) x]
    constructor
    · rintro (h | ⟨y, hy, hxy⟩)
      · rcases le_max_iff.mp h with h | h
        · exact Or.inl h
        · exact Or.inr ⟨a, by simp, by omega⟩
      · exact Or.inr ⟨y, by simp [hy], hxy⟩
    · rintro (h | ⟨y, hy, hxy⟩)
      · exact Or.inl (le_max_of_le_left h)
      · rcases List.mem_cons.mp hy with rfl | hy
        · exact Or.inl (le_max_of_le_right (by omega))
        · exact Or.inr ⟨y, hy, hxy⟩

/-- C4 (amended): a block or layer token contributes to the inferred
counts exactly when it is followed by at least three digits, and the
number read is the value of the first three of them; a token followed by
fewer than three digits never matches.  Stated through the capture scan of
both tokens and through the inferred layer count of a single-stack name
set. -/
theorem structure_inferer_digit_rule :
    (∀ (varNames : List (List Char)) (n : Nat),
      ((∃ nm ∈ varNames, occursCap layerUTok nm n) ↔
        n ∈ varNames.flatMap (fun v => findCaps layerUTok v))) ∧
    (∀ (varNames : List (List Char)) (n : Nat),
      ((∃ nm ∈ varNames, occursCap blockUTok nm n) ↔
        n ∈ varNames.flatMap (fun v => findCaps blockUTok v))) ∧
    (∀ (varNames : List (List Char)),
      (∀ nm ∈ varNames, encTok.isPrefixOf nm = false) →
      ∀ (n : Nat), ((n : Int) + 1 ≤ (computeNumBlocksAndLayer varNames).2.getLastD (-1) ↔
        ∃ nm ∈ varNames, ∃ k, occursCap layerUTok nm k ∧ n ≤ k)) := by
  have hlayer : ∀ (s : List Char) (n : Nat),
      n ∈ findCaps layerUTok s ↔ occursCap layerUTok s n := by
    intro s n
    exact @mem_findCaps_iff 'l' ("ayer_".toList) (by decide) (by decide) s n
  have hblock : ∀ (s : List Char) (n : Nat),
      n ∈ findCaps blockUTok s ↔ occursCap blockUTok s n := by
    intro s n
    exact @mem_findCaps_iff 'b' ("lock_".toList) (by decide) (by decide) s n
  refine ⟨?_, ?_, ?_⟩
  · intro varNames n
    rw [List.mem_flatMap]
    constructor
    · rintro ⟨nm, hnm, hocc⟩; exact ⟨nm, hnm, (hlayer nm n).mpr hocc⟩
    · rintro ⟨nm, hnm, hcap⟩; exact ⟨nm, hnm, (hlayer nm n).mp hcap⟩
  · intro varNames n
    rw [List.mem_flatMap]
    constructor
    · rintro ⟨nm, hnm, hocc⟩; exact ⟨nm, hnm, (hblock nm n).mpr hocc⟩
    · rintro ⟨nm, hnm, hcap⟩; exact ⟨nm, hnm, (hblock nm n).mp hcap⟩
  · intro varNames hEnc n
    have hany : varNames.any (fun v => encTok.isPrefixOf v) = false := by
      rw [List.any_eq_false]
      intro v hv
      simp [hEnc v hv]
    have hcomp : (computeNumBlocksAndLayer varNames).2.getLastD (-1)
        = getMaxNum (fun v => findCaps layerUTok v) varNames := by
      simp only [computeNumBlocksAndLayer, hany]
      rfl
    rw [hcomp]
    unfold getMaxNum
    rw [le_foldl_max_map]
    constructor
    · rintro (h | ⟨k, hk, hnk⟩)
      · omega
      · rw [List.mem_flatMap] at hk
        obtain ⟨nm, hnm, hcap⟩ := hk
        exact ⟨nm, hnm, k, (hlayer nm k).mp hcap, hnk⟩
    · rintro ⟨nm, hnm, k, hocc, hnk⟩
      refine Or.inr ⟨k, ?_, hnk⟩
      rw [List.mem_flatMap]
      exact ⟨nm, hnm, (hlayer nm k).mpr hocc⟩

theorem structure_inferer_digit_rule_witness :
    ((0 : Nat) : Int) + 1
      ≤ (computeNumBlocksAndLayer ["layer_007/w".toList]).2.getLastD (-1) :=
  (structure_inferer_digit_rule.2.2 ["layer_007/w".toList] (by decide) 0).mpr
    ⟨"layer_007/w".toList, by simp, 7,
      ⟨0, "007/w".toList, by decide, by decide, by decide, by decide⟩, by omega⟩

/-- C4 counterexample: the name layer_0010/w carries a layer token whose
number has four digits; the claim says such a token is excluded, which
would leave the inferred layer count at minus one, but the scan reads the
first three digits 001 and infers a layer count of two. -/
theorem structure_inferer_digit_counterexample :
    computeNumBlocksAndLayer ["layer_0010/w".toList] = ([none], [2]) ∧
    computeNumBlocksAndLayer ["layer_0010/w".toList] ≠ ([none], [-1]) := by
  constructor
  · decide
  · decide

/-- Step selector of get_checkpoint_iterator (utils.py, lines 2737 to
2766): the string all, Python None for continuous polling, a single
integer, or a list of integers; the value minus one inside intSel selects
the latest-checkpoint branch. -/
inductive StepSel where
  | allSel : StepSel
  | noneSel : StepSel
  | intSel : Int → StepSel
  | listSel : List Int → StepSel

/-- Eager model of filter over paths with the step filter _filter_fn,
which parses every path and keeps those with step strictly above
skip_until; a parse failure raises and is modelled as an error value. -/
def filterStepsE (skipUntil : Int) : List (List Char) → Except String (List (List Char))
  | [] => .ok []
  | p :: rest => do
    let s ← stepOfPathE p
    let r ← filterStepsE skipUntil rest
    if skipUntil < (s : Int) then return p :: r else return r

/-- Model of the generator in the continuous branch: each path is parsed;
a path with step at most stop_after is yielded, and the iteration breaks
right after the first path with step at least stop_after. -/
def contGenE (stopAfter : Int) : List (List Char) → Except String (List (List Char))
  | [] => .ok []
  | p :: rest => do
    let s ← stepOfPathE p
    let here := if (s : Int) ≤ stopAfter then [p] else []
    if stopAfter ≤ (s : Int) then
      return here
    else do
      let tail ← contGenE stopAfter rest
      return here ++ tail

/-- Continuous mode of get_checkpoint_iterator: the externally polled
sequence of checkpoint paths is filtered by the floor, then cut by the
ceiling when one is given. -/
def continuousCkpts (polled : List (List Char)) (skipUntil : Int)
    (stopAfter : Option Int) : Except String (List (List Char)) := do
  let filtered ← filterStepsE skipUntil polled
  match stopAfter with
  | none => return filtered
  | some ca => contGenE ca filtered

/-- Left-to-right parse of every path, aborting on the first failure, as
the set comprehension of the all branch does. -/
def stepsOfE : List (List Char) → Except String (List Nat)
  | [] => .ok []
  | p :: rest => do
    let s ← stepOfPathE p
    let r ← stepsOfE rest
    return s :: r

/-- Insertion into a sorted duplicate-free list of steps. -/
def insSorted (x : Nat) : List Nat → List Nat
  | [] => [x]
  | y :: r => if x < y then x :: y :: r else if x = y then y :: r else y :: insSorted x r

/-- Sorted deduplication, modelling the Python composition of set and
sorted, and also np.unique. -/
def sortedDedup (l : List Nat) : List Nat := l.foldr insSorted []

/-- The glob model.ckpt* over the directory listing: every file whose name
starts with the literal stem. -/
def globCkpt (listing : List (List Char)) : List (List Char) :=
  listing.filter (fun f => ("model.ckpt".toList).isPrefixOf f)

/-- The all branch of get_checkpoint_iterator: glob the stem, parse every
match into a step with no failure protection, deduplicate and sort the
steps, rebuild paths, and filter by the floor. -/
def allMode (dir : List Char) (listing : List (List Char))
    (skipUntil : Int) : Except String (List (List Char)) := do
  let steps ← stepsOfE (globCkpt listing)
  filterStepsE skipUntil ((sortedDedup steps).map (fun (s : Nat) => ckptPathOfStep dir (s : Int)))

/-- One update of the running minimum of _get_closest_checkpoint: the
accumulator in the none state models the Python infinity, which any first
candidate beats. -/
def closestStep (target : Int) (acc : Option Nat) (c : Nat) : Option Nat :=
  match acc with
  | none => some c
  | some cl => if |target - (c : Int)| < |target - (cl : Int)| then some c else some cl

/-- The running minimum of _get_closest_checkpoint over all parsed steps. -/
def closestFold (target : Int) (cs : List Nat) : Option Nat :=
  cs.foldl (closestStep target) none

/-- Model of _get_closest_checkpoint (utils.py, lines 2697 to 2717): parse
every listed file, skipping the unparseable ones, fail when nothing
parsed, then return the step minimising the absolute distance to the
target; the Python set of steps is modelled as the sorted duplicate-free
list of the parsed steps. -/
def get_closest_checkpoint (listing : List (List Char)) (target : Int) :
    Except String Nat :=
  let cs := sortedDedup (listing.filterMap stepFromPath)
  match closestFold target cs with
  | none => .error "No checkpoint files found"
  | some c => .ok c

/-- Per-element closest lookup for a list of requested steps. -/
def closestsE (listing : List (List Char)) : List Int → Except String (List Nat)
  | [] => .ok []
  | c :: rest => do
    let r ← get_closest_checkpoint listing c
    let rs ← closestsE listing rest
    return r :: rs

/-- The closest branch for a list of steps: per-element closest lookup,
then np.unique, which sorts ascending and removes duplicates, then path
rebuilding. -/
def closestListMode (dir : List Char) (listing : List (List Char))
    (steps : List Int) : Except String (List (List Char)) := do
  let cls ← closestsE listing steps
  return (sortedDedup cls).map (fun (s : Nat) => ckptPathOfStep dir (s : Int))

/-- The exact branch for a list of steps: keep the requested steps whose
built path exists according to the external store, in request order, and
fail when none survives. -/
def exactListMode (dir : List Char) (ckptExists : Int → Bool)
    (steps : List Int) : Except String (List (List Char)) :=
  let cs := steps.filterMap (fun c =>
    if ckptExists c then some (ckptPathOfStep dir c) else none)
  if cs.isEmpty then .error "You asked for checkpoints but none were found"
  else .ok cs

/-- Model of get_checkpoint_iterator (utils.py, lines 2737 to 2766).  The
external store enters as explicit inputs: the directory listing, the
sequence of paths produced by the polling iterator, the manifest latest
path, and the existence predicate of tf.train.checkpoint_exists. -/
def get_checkpoint_iterator (sel : StepSel) (dir : List Char)
    (listing : List (List Char)) (polled : List (List Char))
    (latest : List Char) (ckptExists : Int → Bool)
    (skipUntil : Int) (stopAfter : Option Int) (findClosest : Bool) :
    Except String (List (List Char)) :=
  match sel with
  | .allSel => allMode dir listing skipUntil
  | .intSel n =>
    if n = -1 then .ok [latest]
    else if findClosest then do
      let c ← get_closest_checkpoint listing n
      return [ckptPathOfStep dir (c : Int)]
    else exactListMode dir ckptExists [n]
  | .noneSel => continuousCkpts polled skipUntil stopAfter
  | .listSel ns =>
    if findClosest then closestListMode dir listing ns
    else exactListMode dir ckptExists ns

theorem except_bind_ok {α β : Type} (a : α) (f : α → Except String β) :
    (do
      let x ← (Except.ok a : Except String α)
      f x) = f a := rfl

theorem filterStepsE_mapped (dir : List Char) (skipUntil : Int) :
    ∀ steps : List Nat,
      filterStepsE skipUntil (steps.map (fun (s : Nat) => ckptPathOfStep dir (s : Int)))
        = .ok ((steps.filter (fun (s : Nat) => decide (skipUntil < (s : Int)))).map
            (fun (s : Nat) => ckptPathOfStep dir (s : Int))) := by
  intro steps
  induction steps with
  | nil => rfl
  | cons s r ih =>
    simp only [List.map_cons, filterStepsE, roundtrip_step_codec dir s, ih, except_bind_ok]
    by_cases hs : skipUntil < (s : Int)
    · rw [if_pos hs]
      simp only [List.filter_cons, decide_eq_true hs, List.map_cons]
      rfl
    · rw [if_neg hs]
      simp only [List.filter_cons, decide_eq_false hs]
      rfl

theorem contGenE_mapped (dir : List Char) (ca : Int) :
    ∀ fs : List Nat,
      contGenE ca (fs.map (fun (s : Nat) => ckptPathOfStep dir (s : Int)))
        = .ok (((fs.takeWhile (fun (s : Nat) => decide ((s : Int) < ca)))
            ++ ((fs.dropWhile (fun (s : Nat) => decide ((s : Int) < ca))).take 1).filter
                (fun (s : Nat) => decide ((s : Int) ≤ ca))).map
              (fun (s : Nat) => ckptPathOfStep dir (s : Int))) := by
  intro fs
  induction fs with
  | nil => rfl
  | cons s r ih =>
    simp only [List.map_cons, contGenE, roundtrip_step_codec dir s, except_bind_ok]
    by_cases hlt : (s : Int) < ca
    · have hnotstop : ¬ (ca ≤ (s : Int)) := by omega
      have hle : (s : Int) ≤ ca := by omega
      rw [if_pos hle, if_neg hnotstop, ih]
      simp only [except_bind_ok]
      simp only [List.takeWhile_cons, List.dropWhile_cons, decide_eq_true hlt, List.map_cons]
      rfl
    · have hstop : ca ≤ (s : Int) := by omega
      simp only [List.takeWhile_cons, List.dropWhile_cons, decide_eq_false hlt]
      by_cases hle : (s : Int) ≤ ca
      · rw [if_pos hle, if_pos hstop]
        simp only [List.take, List.filter_cons, decide_eq_true hle, List.map_cons,
          List.filter_nil, List.map_nil, List.nil_append]
        rfl
      · rw [if_neg hle, if_pos hstop]
        simp only [List.take, List.filter_cons, decide_eq_false hle, List.map_nil,
          List.filter_nil, List.nil_append]
        rfl

/-- C5 (amended): in continuous mode with a ceiling, the resolver yields
the floor-filtered identifiers while their steps are strictly below the
ceiling and stops at the first identifier whose step reaches the ceiling;
that stopping identifier is yielded only when its step equals the ceiling
exactly, and is dropped when its step is strictly above it. -/
theorem continuous_mode_ceiling (dir : List Char) (steps : List Nat) (skipUntil ca : Int) :
    continuousCkpts (steps.map (fun (s : Nat) => ckptPathOfStep dir (s : Int))) skipUntil (some ca)
      = .ok ((((steps.filter (fun (s : Nat) => decide (skipUntil < (s : Int)))).takeWhile
            (fun (s : Nat) => decide ((s : Int) < ca)))
          ++ (((steps.filter (fun (s : Nat) => decide (skipUntil < (s : Int)))).dropWhile
              (fun (s : Nat) => decide ((s : Int) < ca))).take 1).filter
              (fun (s : Nat) => decide ((s : Int) ≤ ca))).map
            (fun (s : Nat) => ckptPathOfStep dir (s : Int))) := by
  unfold continuousCkpts
  rw [filterStepsE_mapped]
  simp only [except_bind_ok]
  exact contGenE_mapped dir ca _

/-- C5 counterexample: with floor zero and ceiling twenty, a polled
sequence holding a single checkpoint at step thirty terminates the
sequence without yielding it, although the claim says the first identifier
at or above the ceiling is yielded before the sequence ends. -/
theorem continuous_ceiling_counterexample :
    continuousCkpts [ckptPathOfStep ("d".toList) 30] 0 (some 20) = .ok [] ∧
    ckptPathOfStep ("d".toList) 30 ∉ ([] : List (List Char)) := by
  constructor
  · rfl
  · simp

theorem mem_insSorted (x a : Nat) : ∀ l : List Nat, (a ∈ insSorted x l ↔ a = x ∨ a ∈ l) := by
  intro l
  induction l with
  | nil => simp [insSorted]
  | cons y r ih =>
    simp only [insSorted]
    by_cases h1 : x < y
    · rw [if_pos h1]
      simp
    · rw [if_neg h1]
      by_cases h2 : x = y
      · rw [if_pos h2]
        subst h2
        simp only [List.mem_cons]
        tauto
      · rw [if_neg h2]
        simp only [List.mem_cons, ih]
        tauto

theorem sorted_insSorted (x : Nat) :
    ∀ l : List Nat, l.Sorted (· < ·) → (insSorted x l).Sorted (· < ·) := by
  intro l
  induction l with
  | nil => intro _; simp [insSorted]
  | cons y r ih =>
    intro hs
    rw [List.sorted_cons] at hs
    simp only [insSorted]
    by_cases h1 : x < y
    · rw [if_pos h1, List.sorted_cons]
      constructor
      · intro b hb
        rcases List.mem_cons.mp hb with rfl | hb
        · exact h1
        · exact lt_trans h1 (hs.1 b hb)
      · rw [List.sorted_cons]
        exact hs
    · rw [if_neg h1]
      by_cases h2 : x = y
      · rw [if_pos h2, List.sorted_cons]
        exact hs
      · rw [if_neg h2, List.sorted_cons]
        constructor
        · intro b hb
          rcases (mem_insSorted x b r).mp hb with rfl | hb
          · omega
          · exact hs.1 b hb
        · exact ih hs.2

theorem sorted_sortedDedup : ∀ l : List Nat, (sortedDedup l).Sorted (· < ·) := by
  intro l
  induction l with
  | nil => simp [sortedDedup]
  | cons a r ih => exact sorted_insSorted a _ ih

theorem mem_sortedDedup (a : Nat) : ∀ l : List Nat, (a ∈ sortedDedup l ↔ a ∈ l) := by
  intro l
  induction l with
  | nil => simp [sortedDedup]
  | cons b r ih =>
    show a ∈ insSorted b (sortedDedup r) ↔ _
    rw [mem_insSorted, ih]
    simp

theorem nodup_sortedDedup (l : List Nat) : (sortedDedup l).Nodup :=
  (sorted_sortedDedup l).imp (fun h => ne_of_lt h)

theorem filterMap_if_eq_map_filter (p : Int → Bool) (g : Int → List Char) :
    ∀ steps : List Int,
      steps.filterMap (fun c => if p c then some (g c) else none)
        = (steps.filter p).map g := by
  intro steps
  induction steps with
  | nil => rfl
  | cons a t ih =>
    by_cases h : p a <;> simp [List.filterMap_cons, List.filter_cons, h, ih]

theorem mem_closestsE (listing : List (List Char)) :
    ∀ (steps : List Int) (cls : List Nat), closestsE listing steps = .ok cls →
      ∀ u, (u ∈ cls ↔ ∃ st ∈ steps, get_closest_checkpoint listing st = .ok u) := by
  intro steps
  induction steps with
  | nil =>
    intro cls hcls u
    have : cls = [] := by
      have h := hcls
      simp only [closestsE] at h
      exact (Except.ok.injEq _ _).mp h.symm
    subst this
    simp
  | cons st rest ih =>
    intro cls hcls u
    simp only [closestsE] at hcls
    cases hc : get_closest_checkpoint listing st with
    | error e => rw [hc] at hcls; exact Except.noConfusion hcls
    | ok c =>
      rw [hc] at hcls
      cases hr : closestsE listing rest with
      | error e =>
        rw [hr] at hcls
        exact Except.noConfusion hcls
      | ok rs =>
        rw [hr] at hcls
        have hcls2 : c :: rs = cls := by
          have := hcls
          simp only [except_bind_ok] at this
          exact (Except.ok.injEq _ _).mp this
        subst hcls2
        rw [List.mem_cons]
        constructor
        · rintro (rfl | hu)
          · exact ⟨st, by simp, hc⟩
          · obtain ⟨st2, hst2, h2⟩ := (ih rs hr u).mp hu
            exact ⟨st2, by simp [hst2], h2⟩
        · rintro ⟨st2, hst2, h2⟩
          rcases List.mem_cons.mp hst2 with rfl | hst2
          · rw [hc] at h2
            exact Or.inl ((Except.ok.injEq _ _).mp h2).symm
          · exact Or.inr ((ih rs hr u).mpr ⟨st2, hst2, h2⟩)

theorem closestFold_min (target : Int) :
    ∀ (cs : List Nat) (a r : Nat),
      cs.foldl (closestStep target) (some a) = some r →
      (r = a ∨ r ∈ cs) ∧ |target - (r : Int)| ≤ |target - (a : Int)| ∧
        ∀ c ∈ cs, |target - (r : Int)| ≤ |target - (c : Int)| := by
  intro cs
  induction cs with
  | nil =>
    intro a r h
    simp only [List.foldl_nil] at h
    have : a = r := by simpa using h
    subst this
    simp
  | cons c t ih =>
    intro a r h
    rw [List.foldl_cons] at h
    by_cases hlt : |target - (c : Int)| < |target - (a : Int)|
    · rw [show closestStep target (some a) c = some c by simp [closestStep, hlt]] at h
      obtain ⟨hmem, hle, hall⟩ := ih c r h
      refine ⟨?_, ?_, ?_⟩
      · rcases hmem with rfl | hmem
        · exact Or.inr (by simp)
        · exact Or.inr (by simp [hmem])
      · exact le_trans hle (le_of_lt hlt)
      · intro x hx
        rcases List.mem_cons.mp hx with rfl | hx
        · exact hle
        · exact hall x hx
    · rw [show closestStep target (some a) c = some a by simp [closestStep, hlt]] at h
      obtain ⟨hmem, hle, hall⟩ := ih a r h
      refine ⟨?_, hle, ?_⟩
      · rcases hmem with rfl | hmem
        · exact Or.inl rfl
        · exact Or.inr (by simp [hmem])
      · intro x hx
        rcases List.mem_cons.mp hx with rfl | hx
        · exact le_trans hle (not_lt.mp hlt)
        · exact hall x hx

/-- C7: in closest mode the resolver returns a step that minimises the
absolute distance to the requested step over every checkpoint parsed from
the directory, and in the concrete directory with steps 10, 20 and 35 the
requested step 28 resolves to the identifier of step 35. -/
theorem closest_minimizes :
    (∀ (listing : List (List Char)) (target : Int) (c : Nat),
      get_closest_checkpoint listing target = .ok c →
        c ∈ listing.filterMap stepFromPath ∧
          ∀ s ∈ listing.filterMap stepFromPath,
            |target - (c : Int)| ≤ |target - (s : Int)|) ∧
    (∀ dir : List Char,
      get_checkpoint_iterator (.intSel 28) dir
        ["model.ckpt-10".toList, "model.ckpt-20".toList, "model.ckpt-35".toList]
        [] [] (fun _ => false) 0 none true
      = .ok [ckptPathOfStep dir 35]) := by
  constructor
  · intro listing target c h
    unfold get_closest_checkpoint at h
    cases hcs : sortedDedup (listing.filterMap stepFromPath) with
    | nil =>
      rw [hcs] at h
      exact Except.noConfusion h
    | cons c0 rest =>
      rw [hcs] at h
      have h2 : (match closestFold target (c0 :: rest) with
          | none => (Except.error "No checkpoint files found" : Except String Nat)
          | some c => Except.ok c) = Except.ok c := h
      have hfold : (c0 :: rest).foldl (closestStep target) none = some c := by
        cases hf : closestFold target (c0 :: rest) with
        | none => rw [hf] at h2; exact Except.noConfusion h2
        | some r =>
          rw [hf] at h2
          have hrc : r = c := by simpa using (Except.ok.injEq _ _).mp h2
          rw [← hrc]
          exact hf
      rw [List.foldl_cons] at hfold
      rw [show closestStep target none c0 = some c0 from rfl] at hfold
      obtain ⟨hmem, _, hall⟩ := closestFold_min target rest c0 c hfold
      constructor
      · have hcmem : c ∈ sortedDedup (listing.filterMap stepFromPath) := by
          rw [hcs]
          rcases hmem with rfl | hmem
          · simp
          · simp [hmem]
        exact (mem_sortedDedup c _).mp hcmem
      · intro s hsmem
        have hs2 : s ∈ sortedDedup (listing.filterMap stepFromPath) :=
          (mem_sortedDedup s _).mpr hsmem
        rw [hcs] at hs2
        rcases List.mem_cons.mp hs2 with heq | hs2
        · rw [heq]
          exact (closestFold_min target rest c0 c hfold).2.1
        · exact hall s hs2
  · intro dir
    rfl

theorem closest_minimizes_witness :
    5 ∈ (["model.ckpt-5".toList] : List (List Char)).filterMap stepFromPath ∧
      ∀ s ∈ (["model.ckpt-5".toList] : List (List Char)).filterMap stepFromPath,
        |(0 : Int) - ((5 : Nat) : Int)| ≤ |(0 : Int) - (s : Int)| :=
  closest_minimizes.1 ["model.ckpt-5".toList] 0 5 (by rfl)

/-- C6 (amended): for a list of steps in closest mode the resolver
deduplicates the resolved identifiers and returns them in ascending step
order, while in exact mode it returns the existing identifiers in request
order with no deduplication or sorting, failing only when none exists. -/
theorem list_selector_order :
    (∀ (dir : List Char) (listing : List (List Char)) (steps : List Int) (cls : List Nat),
      closestsE listing steps = .ok cls →
      (get_checkpoint_iterator (.listSel steps) dir listing [] [] (fun _ => false) 0 none true
        = .ok ((sortedDedup cls).map (fun (s : Nat) => ckptPathOfStep dir (s : Int))) ∧
      (sortedDedup cls).Sorted (· < ·) ∧ (sortedDedup cls).Nodup ∧
      (∀ u, u ∈ sortedDedup cls ↔ ∃ st ∈ steps, get_closest_checkpoint listing st = .ok u))) ∧
    (∀ (dir : List Char) (ckptExists : Int → Bool) (steps : List Int) (ps : List (List Char)),
      get_checkpoint_iterator (.listSel steps) dir [] [] [] ckptExists 0 none false = .ok ps →
      ps = (steps.filter ckptExists).map (fun c => ckptPathOfStep dir c)) ∧
    (∀ (dir : List Char) (ckptExists : Int → Bool) (steps : List Int),
      ((∃ e, get_checkpoint_iterator (.listSel steps) dir [] [] [] ckptExists 0 none false
          = .error e) ↔ steps.filter ckptExists = [])) := by
  refine ⟨?_, ?_, ?_⟩
  · intro dir listing steps cls hcls
    refine ⟨?_, sorted_sortedDedup cls, nodup_sortedDedup cls, ?_⟩
    · show closestListMode dir listing steps = _
      unfold closestListMode
      rw [hcls]
      rfl
    · intro u
      rw [mem_sortedDedup]
      exact mem_closestsE listing steps cls hcls u
  · intro dir ckptExists steps ps hps
    have h2 : exactListMode dir ckptExists steps = .ok ps := hps
    unfold exactListMode at h2
    rw [filterMap_if_eq_map_filter] at h2
    by_cases hemp : ((steps.filter ckptExists).map (fun c => ckptPathOfStep dir c)).isEmpty
    · rw [if_pos hemp] at h2
      exact Except.noConfusion h2
    · rw [if_neg hemp] at h2
      exact ((Except.ok.injEq _ _).mp h2).symm
  · intro dir ckptExists steps
    have hmode : get_checkpoint_iterator (.listSel steps) dir [] [] [] ckptExists 0 none false
        = exactListMode dir ckptExists steps := rfl
    rw [hmode]
    unfold exactListMode
    rw [filterMap_if_eq_map_filter]
    constructor
    · rintro ⟨e, he⟩
      by_cases hemp : ((steps.filter ckptExists).map (fun c => ckptPathOfStep dir c)).isEmpty
      · exact List.map_eq_nil_iff.mp (List.isEmpty_iff.mp hemp)
      · rw [if_neg hemp] at he
        exact Except.noConfusion he
    · intro hnil
      have hemp : ((steps.filter ckptExists).map (fun c => ckptPathOfStep dir c)).isEmpty = true := by
        rw [hnil]
        rfl
      rw [if_pos hemp]
      exact ⟨"You asked for checkpoints but none were found", rfl⟩

theorem list_selector_order_witness :
    [ckptPathOfStep ("d".toList) 7]
      = (([7] : List Int).filter (fun _ => true)).map (fun c => ckptPathOfStep ("d".toList) c) :=
  list_selector_order.2.1 ("d".toList) (fun _ => true) [7] [ckptPathOfStep ("d".toList) 7] (by rfl)

/-- C6 counterexample: in exact mode, the requested list of steps 20 then
10, both existing, resolves to the identifiers in request order, not in
ascending step order as the claim states. -/
theorem exact_list_order_counterexample :
    get_checkpoint_iterator (.listSel [20, 10]) ("d".toList) [] [] [] (fun _ => true)
        0 none false
      = .ok [ckptPathOfStep ("d".toList) 20, ckptPathOfStep ("d".toList) 10] ∧
    [ckptPathOfStep ("d".toList) 20, ckptPathOfStep ("d".toList) 10]
      ≠ [ckptPathOfStep ("d".toList) 10, ckptPathOfStep ("d".toList) 20] := by
  constructor
  · rfl
  · decide

/-- C9 (amended): the closest-mode directory scan skips a filename without
a parseable step, and parsing a caller-supplied identifier fails hard; but
the all selector has no skip path, so a globbed file without a parseable
step aborts the whole enumeration. -/
theorem malformed_step_handling :
    (∀ (listing : List (List Char)) (f : List Char) (target : Int),
      stepFromPath f = none →
      get_closest_checkpoint (f :: listing) target = get_closest_checkpoint listing target) ∧
    (∀ p : List Char, stepFromPath p = none →
      stepOfPathE p = .error "Invalid checkpoint path") ∧
    (get_checkpoint_iterator .allSel ("d".toList) ["model.ckpt".toList] [] []
        (fun _ => false) 0 none false
      = .error "Invalid checkpoint path") := by
  refine ⟨?_, ?_, rfl⟩
  · intro listing f target hf
    unfold get_closest_checkpoint
    rw [List.filterMap_cons, hf]
  · intro p hp
    simp [stepOfPathE, hp]

theorem malformed_step_handling_witness :
    get_closest_checkpoint ("x".toList :: []) 0 = get_closest_checkpoint [] 0 :=
  malformed_step_handling.1 [] ("x".toList) 0 (by rfl)

/-- C9 counterexample: a directory holding a valid checkpoint file at step
five next to a file model.ckpt with no step makes the all selector abort
with the parse error instead of skipping the malformed name and returning
the valid checkpoint. -/
theorem all_mode_malformed_counterexample :
    get_checkpoint_iterator .allSel ("d".toList)
        ["model.ckpt-5".toList, "model.ckpt".toList] [] [] (fun _ => false) 0 none false
      = .error "Invalid checkpoint path" ∧
    get_checkpoint_iterator .allSel ("d".toList)
        ["model.ckpt-5".toList, "model.ckpt".toList] [] [] (fun _ => false) 0 none false
      ≠ .ok [ckptPathOfStep ("d".toList) 5] := by
  refine ⟨rfl, ?_⟩
  intro h
  exact nomatch h

/-- Python list indexing, raising IndexError when out of range. -/
def idxE {α : Type} (l : List α) (i : Nat) : Except String α :=
  match l[i]? with
  | some a => .ok a
  | none => .error "IndexError"

/-- Python tuple unpacking of the optional new_layers list of lists into
the encoder part and the decoder part: None unpacks to two None values,
and a list unpacks only when it has exactly two elements. -/
def unpack2E {α : Type} : Option (List α) → Except String (Option α × Option α)
  | none => .ok (none, none)
  | some [a, b] => .ok (some a, some b)
  | some _ => .error "ValueError: unpack"

/-- Model of the correspondence-building phase of
flexible_ckpt_init_mapping (utils.py, lines 446 to 481): infer the
structure of both name sets, then build one mapping per sub-tree, or a
single unprefixed mapping for single-stack models; list indexing and the
builder error propagate as error values. -/
def flexible_ckpt_init_mapping (ckptVarNames localVarNames : List (List Char))
    (newLayers : Option (List (List Int))) :
    Except String (List (List (LayerPat × LayerPat))) :=
  let cbl := computeNumBlocksAndLayer ckptVarNames
  let lbl := computeNumBlocksAndLayer localVarNames
  if cbl.1.length = 2 then do
    let nl ← unpack2E newLayers
    let cb0 ← idxE cbl.1 0
    let cl0 ← idxE cbl.2 0
    let lb0 ← idxE lbl.1 0
    let ll0 ← idxE lbl.2 0
    let encM ← build_ckpt_to_local_var_name_mapping cb0 cl0 lb0 ll0 nl.1 (some encTok)
    let cb1 ← idxE cbl.1 1
    let cl1 ← idxE cbl.2 1
    let lb1 ← idxE lbl.1 1
    let ll1 ← idxE lbl.2 1
    let decM ← build_ckpt_to_local_var_name_mapping cb1 cl1 lb1 ll1 nl.2 (some decTok)
    return [encM, decM]
  else do
    let nLm ← (match newLayers with
      | none => (.ok none : Except String (Option (List Int)))
      | some ls => do
          let x ← idxE ls 0
          return some x)
    let cb0 ← idxE cbl.1 0
    let cl0 ← idxE cbl.2 0
    let lb0 ← idxE lbl.1 0
    let ll0 ← idxE lbl.2 0
    let lmM ← build_ckpt_to_local_var_name_mapping cb0 cl0 lb0 ll0 nLm none
    return [lmM]

theorem matcher_empty_iff (c v : List Char) :
    match_ckpt_to_local_var_name c v [] = true ↔
      ((isSubOf layerTok c = false ∨ isSubOf layerTok v = false) ∧ c = v) := by
  unfold match_ckpt_to_local_var_name
  by_cases h1 : (!(isSubOf layerTok c) || !(isSubOf layerTok v)) = true
  · rw [if_pos h1, beq_iff_eq]
    simp only [Bool.or_eq_true, Bool.not_eq_true'] at h1
    constructor
    · intro hcv; exact ⟨h1, hcv⟩
    · rintro ⟨_, hcv⟩; exact hcv
  · rw [if_neg h1]
    simp only [Bool.or_eq_true, Bool.not_eq_true', not_or, Bool.not_eq_false] at h1
    by_cases h2 : lastSeg c ≠ lastSeg v
    · rw [if_pos h2]
      simp only [Bool.false_eq_true, false_iff, not_and]
      rintro (hdisj | hdisj) rfl
      · rw [h1.1] at hdisj; exact Bool.noConfusion hdisj
      · rw [h1.2] at hdisj; exact Bool.noConfusion hdisj
    · rw [if_neg h2]
      simp only [List.any_nil, Bool.false_eq_true, false_iff, not_and]
      rintro (hdisj | hdisj) rfl
      · rw [h1.1] at hdisj; exact Bool.noConfusion hdisj
      · rw [h1.2] at hdisj; exact Bool.noConfusion hdisj

theorem is_restorable_empty_iff (ckptVarNames localVarNames : List (List Char))
    (v : List Char) :
    is_restorable ckptVarNames localVarNames [[]] v = true ↔
      (v ∈ ckptVarNames ∧ v ∈ localVarNames ∧ isSubOf layerTok v = false) := by
  unfold is_restorable
  rw [Bool.and_eq_true]
  constructor
  · rintro ⟨hcl, hany⟩
    rw [List.any_eq_true] at hany
    obtain ⟨c, hc, hm⟩ := hany
    rw [List.any_eq_true] at hm
    obtain ⟨m, hmem, hmatch⟩ := hm
    have hm0 : m = [] := by simpa using hmem
    subst hm0
    rw [matcher_empty_iff] at hmatch
    obtain ⟨hdisj, rfl⟩ := hmatch
    refine ⟨hc, List.mem_of_elem_eq_true hcl, ?_⟩
    rcases hdisj with h | h
    · exact h
    · exact h
  · rintro ⟨hvc, hvl, hsub⟩
    refine ⟨List.elem_eq_true_of_mem hvl, ?_⟩
    rw [List.any_eq_true]
    refine ⟨v, hvc, ?_⟩
    rw [List.any_eq_true]
    refine ⟨[], by simp, ?_⟩
    rw [matcher_empty_iff]
    exact ⟨Or.inl hsub, rfl⟩

theorem compute_no_layer (varNames : List (List Char))
    (hEnc : ∀ nm ∈ varNames, encTok.isPrefixOf nm = false)
    (hTok : ∀ nm ∈ varNames, ∀ n, ¬ occursCap layerUTok nm n) :
    ∃ B, computeNumBlocksAndLayer varNames = ([B], [-1]) := by
  have hany : varNames.any (fun v => encTok.isPrefixOf v) = false := by
    rw [List.any_eq_false]
    intro v hv
    simp [hEnc v hv]
  have hcapnil : varNames.flatMap (fun v => findCaps layerUTok v) = [] := by
    rw [List.flatMap_eq_nil_iff]
    intro v hv
    rw [List.eq_nil_iff_forall_not_mem]
    intro n hn
    exact hTok v hv n
      ((@mem_findCaps_iff 'l' ("ayer_".toList) (by decide) (by decide) v n).mp hn)
  refine ⟨if getMaxNum (fun v => findCaps blockUTok v) varNames = -1 then none
      else some (getMaxNum (fun v => findCaps blockUTok v) varNames), ?_⟩
  unfold computeNumBlocksAndLayer
  rw [hany]
  simp only [Bool.false_eq_true, if_false]
  have hlay : getMaxNum (fun v => findCaps layerUTok v) varNames = -1 := by
    unfold getMaxNum
    rw [hcapnil]
    rfl
  rw [hlay]

theorem flexible_no_layer (Bc Bl : Option Int) (ckptN localN : List (List Char))
    (h1 : computeNumBlocksAndLayer ckptN = ([Bc], [-1]))
    (h2 : computeNumBlocksAndLayer localN = ([Bl], [-1])) :
    flexible_ckpt_init_mapping ckptN localN none = .ok [[]] := by
  have hr : rangeN (-1) = [] := rfl
  have hbuild : build_ckpt_to_local_var_name_mapping Bc (-1) Bl (-1) none none = .ok [] := by
    unfold build_ckpt_to_local_var_name_mapping allCkptRegexes allLocalRegexes
    simp only [hr, List.map_nil]
    have hsum : ∀ l : List Nat,
        (List.map (List.length ∘ fun (b : Nat) => ([] : List LayerPat)) l).sum = 0 := by
      intro l
      induction l with
      | nil => rfl
      | cons a t ih => simpa using ih
    have hnil : ∀ l : List Nat, (l.flatMap fun (b : Nat) => ([] : List LayerPat)) = [] := by
      intro l
      rw [List.flatMap_eq_nil_iff]
      intro x _
      rfl
    simp [hsum, hnil]
  unfold flexible_ckpt_init_mapping
  rw [h1, h2]
  simp [idxE, hbuild, except_bind_ok]

/-- C10: when no name on either side begins with the encoder marker and no
name carries a layer token followed by three digits, the inferred layer
count is minus one on both sides, both pattern enumerations are empty, the
construction succeeds with one empty correspondence and no error, and the
resulting index makes restorable exactly the names present identically in
both sets that do not contain the substring layer. -/
theorem no_layer_token_empty_mapping :
    ∀ (ckptVarNames localVarNames : List (List Char)),
      (∀ nm ∈ ckptVarNames, encTok.isPrefixOf nm = false) →
      (∀ nm ∈ localVarNames, encTok.isPrefixOf nm = false) →
      (∀ nm ∈ ckptVarNames, ∀ n, ¬ occursCap layerUTok nm n) →
      (∀ nm ∈ localVarNames, ∀ n, ¬ occursCap layerUTok nm n) →
      (flexible_ckpt_init_mapping ckptVarNames localVarNames none = .ok [[]] ∧
        ∀ v, is_restorable ckptVarNames localVarNames [[]] v = true ↔
          (v ∈ ckptVarNames ∧ v ∈ localVarNames ∧ isSubOf layerTok v = false)) := by
  intro ck lo hE1 hE2 hT1 hT2
  obtain ⟨Bc, h1⟩ := compute_no_layer ck hE1 hT1
  obtain ⟨Bl, h2⟩ := compute_no_layer lo hE2 hT2
  exact ⟨flexible_no_layer Bc Bl ck lo h1 h2, fun v => is_restorable_empty_iff ck lo v⟩

theorem not_occursCap_short {tok nm : List Char} {n : Nat}
    (h : nm.length + 1 ≤ tok.length + 3) : ¬ occursCap tok nm n := by
  rintro ⟨i, ds, hdrop, hlen, _, _⟩
  have hlen2 := congrArg List.length hdrop
  simp only [List.length_drop, List.length_append] at hlen2
  omega

theorem no_layer_token_empty_mapping_witness :
    flexible_ckpt_init_mapping ["a".toList] ["a".toList] none = .ok [[]] :=
  (no_layer_token_empty_mapping ["a".toList] ["a".toList]
    (by decide) (by decide)
    (fun nm hnm n => by
      have hn : nm = "a".toList := by simpa using hnm
      subst hn
      exact not_occursCap_short (by decide))
    (fun nm hnm n => by
      have hn : nm = "a".toList := by simpa using hnm
      subst hn
      exact not_occursCap_short (by decide))).1
